import Mathlib

/-!
Shallow embedding of the crossword constraint-satisfaction solver
(`3.Optimization/crossword/generate.py`, class `CrosswordCreator`).

The grid model (`crossword.py`, class `Crossword` / `Variable`) is not part of
the sources; it is modelled abstractly from the specification (§3 Data Model):
a crossword carries its set of slots, its vocabulary, and an overlap map, and
the neighbor relation is derived from the overlap map.

Python data is rendered as follows: sets and dicts become lists
(association lists for dicts, preserving insertion-order semantics of Python
dicts), strings become `String` with character access `String.data.get?`
(within-range accesses agree with Python indexing), and the mutable
`self.domains` dict becomes an explicit `Domains` function threaded through
the operations.  The unbounded `while queue` loop of `ac3` and the recursion
of `backtrack` are given explicit fuel; `none` means the run did not finish
within the provided fuel (for `ac3` a sufficient fuel is computed below and
proved sufficient).
-/

namespace CrosswordCSP

/-- Modelled from the spec: a slot direction, `ACROSS` or `DOWN`
(`Variable.ACROSS` / `Variable.DOWN` in the missing `crossword.py`). -/
inductive Direction where
  | across
  | down
deriving DecidableEq, Repr

/-- Modelled from the spec: a slot (crossword variable), identified by its
starting row `i`, starting column `j`, its direction and its `length`; two
slots are equal iff all four fields match. -/
structure Variable where
  i : Nat
  j : Nat
  direction : Direction
  length : Nat
deriving DecidableEq, Repr

/-- Modelled from the spec: the grid model.  `variables` is the set of slots,
`words` the vocabulary, and `overlaps` the overlap map: `none` when two slots
never intersect, `some (p, q)` when character `p` of the first slot's word
must equal character `q` of the second slot's word.  (The geometric
derivation of these from the boolean grid lives in the missing
`crossword.py`; the solver only ever consumes them through this interface.) -/
structure Crossword where
  vars : List Variable
  words : List String
  overlaps : Variable → Variable → Option (Nat × Nat)

/-- Modelled from the spec: slots `A` and `B` are neighbors iff they are
distinct and their overlap is defined. -/
def Crossword.neighbors (c : Crossword) (v : Variable) : List Variable :=
  c.vars.filter (fun u => decide (u ≠ v) && (c.overlaps v u).isSome)

/-- The domain store: each slot's current list of candidate words
(`self.domains` in the source). -/
abbrev Domains := Variable → List String

/-- `w[k]` of the source, totalised: character `k` of `w` if in range. -/
def charAt (w : String) (k : Nat) : Option Char :=
  w.data.get? k

/-- `CrosswordCreator.__init__`: every slot's domain starts as a copy of the
vocabulary. -/
def initialDomains (c : Crossword) : Domains :=
  fun _ => c.words

/-- `CrosswordCreator.enforce_node_consistency`: drop from each slot's domain
every word whose length differs from the slot's length.  (The Python loop
runs over the keys of `self.domains`, which are exactly the crossword's
variables; other slots are untouched.) -/
def enforce_node_consistency (c : Crossword) (d : Domains) : Domains :=
  fun v =>
    if v ∈ c.vars then
      (d v).filter (fun w => decide (w.length = v.length))
    else d v

/-- `CrosswordCreator.revise`: make `x` arc consistent with `y`, removing
from `domain[x]` every word with no possible corresponding value in
`domain[y]`; returns whether a revision was made, paired with the updated
domain store. -/
def revise (c : Crossword) (d : Domains) (x y : Variable) : Bool × Domains :=
  match c.overlaps x y with
  | none => (false, d)
  | some (o0, o1) =>
    let ychars := (d y).map (fun w => charAt w o1)
    let removed := (d x).filter (fun w => !(decide (charAt w o0 ∈ ychars)))
    let keep := (d x).filter (fun w => decide (charAt w o0 ∈ ychars))
    (!removed.isEmpty, Function.update d x keep)

/-- An arc of the `ac3` worklist: an ordered pair of slots. -/
abbrev Arc := Variable × Variable

/-- The default worklist of `ac3` when called with `arcs=None`: all ordered
pairs of distinct variables whose overlap is defined, in
`itertools.product` order. -/
def initialArcs (c : Crossword) : List Arc :=
  (c.vars.product c.vars).filter
    (fun p => decide (p.1 ≠ p.2) && (c.overlaps p.1 p.2).isSome)

/-- The `while queue` loop of `CrosswordCreator.ac3`, with explicit fuel:
pop the head arc, revise; on a revision that empties `domain[x]` return
`false`; on any other revision re-enqueue `(z, x)` for every neighbor `z`
of `x` other than `y`.  `none` means the fuel ran out. -/
def ac3Fuel (c : Crossword) : Nat → List Arc → Domains → Option (Bool × Domains)
  | 0, _, _ => none
  | _ + 1, [], d => some (true, d)
  | n + 1, (x, y) :: rest, d =>
    let r := revise c d x y
    if r.1 then
      if (r.2 x).length = 0 then some (false, r.2)
      else
        ac3Fuel c n
          (rest ++ ((c.neighbors x).filter (fun z => decide (z ≠ y))).map (fun z => (z, x)))
          r.2
    else ac3Fuel c n rest d

/-- Total number of candidate words over all (deduplicated) slots. -/
def domSize (c : Crossword) (d : Domains) : Nat :=
  (c.vars.dedup.map (fun v => (d v).length)).sum

/-- Candidate words of first components of queued arcs that lie outside the
crossword's variables (these can only come from a caller-supplied worklist). -/
def foreignSize (c : Crossword) (queue : List Arc) (d : Domains) : Nat :=
  (queue.map (fun p => if p.1 ∈ c.vars then 0 else (d p.1).length)).sum

/-- Termination measure for the `ac3` worklist loop: it strictly decreases
at every iteration. -/
def acMeasure (c : Crossword) (queue : List Arc) (d : Domains) : Nat :=
  queue.length + (c.vars.length + 1) * (domSize c d + foreignSize c queue d)

/-- `CrosswordCreator.ac3`: run the worklist loop from the given initial arcs
(the default all-neighbor-arcs list when `arcs` is `none`), with enough fuel
for the loop to reach its fixed point. -/
def ac3 (c : Crossword) (arcs : Option (List Arc)) (d : Domains) :
    Option (Bool × Domains) :=
  let queue := arcs.getD (initialArcs c)
  ac3Fuel c (acMeasure c queue d + 1) queue d

/-- An assignment: the Python dict mapping slots to words, as an association
list in insertion order. -/
abbrev Assignment := List (Variable × String)

/-- `assignment.keys()`. -/
def keysA (a : Assignment) : List Variable :=
  a.map (fun p => p.1)

/-- `assignment[v]`, as an option. -/
def lookupA (a : Assignment) (v : Variable) : Option String :=
  (a.find? (fun p => decide (p.1 = v))).map (fun p => p.2)

/-- `assignment[v] = w`: overwrite in place if present, else append (Python
dict insertion-order semantics). -/
def insertA (a : Assignment) (v : Variable) (w : String) : Assignment :=
  if v ∈ keysA a then
    a.map (fun p => if p.1 = v then (v, w) else p)
  else a ++ [(v, w)]

/-- `assignment.pop(v, None)`: remove the entry for `v` if present. -/
def eraseA (a : Assignment) (v : Variable) : Assignment :=
  a.filter (fun p => !(decide (p.1 = v)))

/-- `CrosswordCreator.assignment_complete`: the key set equals the
crossword's variable set and every value is truthy (a non-empty word). -/
def assignment_complete (c : Crossword) (a : Assignment) : Bool :=
  (keysA a).all (fun v => decide (v ∈ c.vars)) &&
  c.vars.all (fun v => decide (v ∈ keysA a)) &&
  a.all (fun p => !(decide (p.2 = "")))

/-- `CrosswordCreator.consistent`: all assigned words distinct, every word of
the correct length, and no conflicting characters between assigned
neighboring slots. -/
def consistent (c : Crossword) (a : Assignment) : Bool :=
  (decide ((a.map (fun p => p.2)).dedup.length = (a.map (fun p => p.1)).dedup.length)) &&
  (!(a.any (fun p => !(decide (p.1.length = p.2.length))))) &&
  a.all (fun p =>
    ((c.neighbors p.1).filter (fun nb => decide (nb ∈ keysA a))).all (fun nb =>
      match c.overlaps p.1 nb, lookupA a nb with
      | some (o0, o1), some wnb => charAt p.2 o0 == charAt wnb o1
      | _, _ => true))

/-- Stable insertion step: place `x` before the first element it is allowed
to precede. -/
def insertSorted (le : α → α → Bool) (x : α) : List α → List α
  | [] => [x]
  | y :: ys => if le x y then x :: y :: ys else y :: insertSorted le x ys

/-- Python's `sorted`: a stable sort by the comparison `le` (`le p q` means
`p` may come before `q`).  A stable sort's output is uniquely determined by
the input order and the comparison, so any stable sort renders `sorted`
faithfully. -/
def sortStable (le : α → α → Bool) : List α → List α
  | [] => []
  | x :: xs => insertSorted le x (sortStable le xs)

/-- `CrosswordCreator.order_domain_values`: sort the domain of `var`
ascending by the number of values each word rules out among the domains of
the still-unassigned neighbors (least-constraining-value); Python's `sorted`
is stable, as is `sortStable`. -/
def order_domain_values (c : Crossword) (d : Domains) (var : Variable)
    (a : Assignment) : List String :=
  let nbrs := (c.neighbors var).filter (fun nb => !(decide (nb ∈ keysA a)))
  let weight := fun (w : String) =>
    (nbrs.map (fun nb =>
      match c.overlaps var nb with
      | some (o0, o1) =>
        ((d nb).filter (fun u => !(charAt w o0 == charAt u o1))).length
      | none => 0)).sum
  (sortStable (fun p q => decide (p.2 ≤ q.2))
    ((d var).map (fun w => (w, weight w)))).map (fun p => p.1)

/-- `CrosswordCreator.select_unassigned_variable`: sort the unassigned slots
by remaining-domain size; if the first two counts differ (or there is only
one slot) take the first, otherwise take the head of all unassigned slots
sorted by descending neighbor count.  `none` renders the `IndexError` the
source raises when no slot is unassigned. -/
def select_unassigned_variable (c : Crossword) (d : Domains) (a : Assignment) :
    Option Variable :=
  let unassigned := c.vars.filter (fun v => !(decide (v ∈ keysA a)))
  let counts := unassigned.map (fun v => (v, (d v).length))
  match sortStable (fun p q => decide (p.2 ≤ q.2)) counts with
  | [] => none
  | [p] => some p.1
  | p :: q :: _ =>
    if p.2 ≠ q.2 then some p.1
    else
      match sortStable (fun p q => decide (q.2 ≤ p.2))
          (unassigned.map (fun v => (v, (c.neighbors v).length))) with
      | [] => none
      | r :: _ => some r.1

/-- The `for value in self.order_domain_values(var, assignment)` loop of
`backtrack`: try each candidate word in turn; on a consistent tentative
extension recurse (the recursive `backtrack` of the next fuel level is
passed in as `bt`), and in every non-returning case pop the slot's
tentative entry before the next iteration. -/
def backtrackLoop (c : Crossword)
    (bt : Assignment → Option (Option Assignment × Assignment))
    (var : Variable) : List String → Assignment →
    Option (Option Assignment × Assignment)
  | [], a => some (none, a)
  | w :: ws, a =>
    if consistent c (insertA a var w) then
      match bt (insertA a var w) with
      | none => none
      | some (some r, a₁) => some (some r, a₁)
      | some (none, a₁) => backtrackLoop c bt var ws (eraseA a₁ var)
    else backtrackLoop c bt var ws (eraseA a var)

/-- `CrosswordCreator.backtrack`, with the in-place mutation of `assignment`
made explicit: the result pairs the Python return value with the state of
the `assignment` dict when the call returns.  `none` renders a run that does
not finish within the fuel (or hits the source's `IndexError` when no slot
is unassigned yet the assignment is not complete). -/
def backtrackS (c : Crossword) (d : Domains) :
    Nat → Assignment → Option (Option Assignment × Assignment)
  | 0, _ => none
  | n + 1, a =>
    if assignment_complete c a then some (some a, a)
    else
      match select_unassigned_variable c d a with
      | none => none
      | some var =>
        backtrackLoop c (backtrackS c d n) var (order_domain_values c d var a) a

/-- `CrosswordCreator.solve`: node consistency, then `ac3` on the default
worklist, then backtracking search from the empty assignment (with enough
fuel for one level per slot plus the root). -/
def solve (c : Crossword) : Option (Option Assignment × Assignment) :=
  let d0 := enforce_node_consistency c (initialDomains c)
  match ac3 c none d0 with
  | none => none
  | some (_, d1) => backtrackS c d1 (c.vars.length + 1) []

/-! ### Concrete instances used by witnesses and counterexamples -/

/-- A length-3 slot running down from cell (0,0). -/
def vA : Variable := ⟨0, 0, .down, 3⟩

/-- A length-3 slot running down from cell (0,2). -/
def vB : Variable := ⟨0, 2, .down, 3⟩

/-- A length-3 slot running across from cell (0,0). -/
def vC : Variable := ⟨0, 0, .across, 3⟩

/-- Three slots: `vC` across crosses `vA` (shared cell (0,0)) and `vB`
(shared cell (0,2)); `vA` and `vB` do not intersect. -/
def cex4 : Crossword where
  vars := [vA, vB, vC]
  words := ["aaa", "bbb", "ccc", "ddd"]
  overlaps := fun x y =>
    if x = vC ∧ y = vA then some (0, 0)
    else if x = vA ∧ y = vC then some (0, 0)
    else if x = vC ∧ y = vB then some (2, 0)
    else if x = vB ∧ y = vC then some (0, 2)
    else none

/-- Domains giving `vA` and `vB` one candidate each and `vC` two. -/
def d4 : Domains := fun v =>
  if v = vA then ["aaa"]
  else if v = vB then ["bbb"]
  else if v = vC then ["ccc", "ddd"]
  else []

/-- A single length-3 slot with a fitting and a non-fitting word. -/
def cex1 : Crossword where
  vars := [vC]
  words := ["dog", "no"]
  overlaps := fun _ _ => none

/-- Two non-intersecting length-3 slots over a one-word vocabulary: no
solution, since assigned words must be pairwise distinct. -/
def cex3 : Crossword where
  vars := [vA, vB]
  words := ["dog"]
  overlaps := fun _ _ => none

/-- Two crossing length-3 slots whose sole candidates disagree on the
shared cell. -/
def cexF : Crossword where
  vars := [vA, vC]
  words := ["abc", "xyz"]
  overlaps := fun x y =>
    if x = vC ∧ y = vA then some (0, 0)
    else if x = vA ∧ y = vC then some (0, 0)
    else none

/-- Domains for `cexF`: `vA` can only be "abc", `vC` only "xyz". -/
def dF : Domains := fun v =>
  if v = vA then ["abc"] else if v = vC then ["xyz"] else []

/-- Two crossing length-3 slots over the spec's CAT/DOG/CAR vocabulary. -/
def cex2 : Crossword where
  vars := [vA, vC]
  words := ["CAT", "DOG", "CAR"]
  overlaps := fun x y =>
    if x = vC ∧ y = vA then some (0, 0)
    else if x = vA ∧ y = vC then some (0, 0)
    else none

/-- The node-consistent domains of `cex2`. -/
def d2 : Domains := enforce_node_consistency cex2 (initialDomains cex2)

/-! ### Basic properties of `revise` and `enforce_node_consistency` -/

lemma revise_snd_of_ne (c : Crossword) (d : Domains) (x y v : Variable)
    (hv : v ≠ x) : ((revise c d x y).2) v = d v := by
  simp only [revise]
  cases h : c.overlaps x y with
  | none => rfl
  | some p =>
    obtain ⟨o0, o1⟩ := p
    simp [Function.update_noteq hv]

lemma mem_revise_keep (c : Crossword) (d : Domains) (x y : Variable)
    (o0 o1 : Nat) (h : c.overlaps x y = some (o0, o1)) (w : String) :
    w ∈ ((revise c d x y).2) x ↔
      w ∈ d x ∧ charAt w o0 ∈ (d y).map (fun u => charAt u o1) := by
  simp [revise, h, Function.update_same, List.mem_filter]

lemma revise_subset (c : Crossword) (d : Domains) (x y v : Variable) :
    ((revise c d x y).2) v ⊆ d v := by
  by_cases hv : v = x
  · subst hv
    cases h : c.overlaps v y with
    | none => simp [revise, h]
    | some p =>
      obtain ⟨o0, o1⟩ := p
      intro w hw
      exact ((mem_revise_keep c d v y o0 o1 h w).mp hw).1
  · rw [revise_snd_of_ne c d x y v hv]
    exact fun _ h => h

lemma revise_true_overlap (c : Crossword) (d : Domains) (x y : Variable)
    (hr : (revise c d x y).1 = true) :
    ∃ o0 o1, c.overlaps x y = some (o0, o1) := by
  cases h : c.overlaps x y with
  | none => simp [revise, h] at hr
  | some p =>
    obtain ⟨o0, o1⟩ := p
    exact ⟨o0, o1, rfl⟩

lemma revise_false_support (c : Crossword) (d : Domains) (x y : Variable)
    (o0 o1 : Nat) (h : c.overlaps x y = some (o0, o1))
    (hr : (revise c d x y).1 = false) :
    ∀ w ∈ d x, charAt w o0 ∈ (d y).map (fun u => charAt u o1) := by
  intro w hw
  simp only [revise, h, Bool.not_eq_false', List.isEmpty_iff,
    List.filter_eq_nil_iff] at hr
  simpa using hr w hw

lemma enforce_subset (c : Crossword) (d : Domains) (v : Variable) :
    enforce_node_consistency c d v ⊆ d v := by
  unfold enforce_node_consistency
  by_cases hv : v ∈ c.vars
  · simp only [hv, if_true]
    exact fun w hw => (List.mem_filter.mp hw).1
  · simp [hv]

lemma enforce_length (c : Crossword) (d : Domains) (v : Variable)
    (hv : v ∈ c.vars) (w : String) (hw : w ∈ enforce_node_consistency c d v) :
    w.length = v.length := by
  unfold enforce_node_consistency at hw
  simp only [hv, if_true, List.mem_filter, decide_eq_true_eq] at hw
  exact hw.2

/-- **C9**: for every pair of slots `x`, `y` whose overlap-map entry is
`none`, `revise x y` returns `false` and leaves every slot's domain
unchanged. -/
theorem revise_no_overlap_noop (c : Crossword) (d : Domains) (x y : Variable)
    (h : c.overlaps x y = none) : revise c d x y = (false, d) := by
  simp [revise, h]

/-- Witness for C9 at a concrete non-intersecting pair of slots. -/
theorem revise_no_overlap_noop_witness :
    cexF.overlaps vA vB = none ∧ revise cexF dF vA vB = (false, dF) :=
  ⟨by decide, revise_no_overlap_noop cexF dF vA vB (by decide)⟩

/-! ### The worklist loop only removes words -/

lemma ac3Fuel_subset (c : Crossword) :
    ∀ n queue d b d', ac3Fuel c n queue d = some (b, d') → ∀ v, d' v ⊆ d v := by
  intro n
  induction n with
  | zero =>
    intro queue d b d' h
    simp [ac3Fuel] at h
  | succ n ih =>
    intro queue d b d' h v
    match queue with
    | [] =>
      simp only [ac3Fuel, Option.some.injEq, Prod.mk.injEq] at h
      rw [← h.2]
      exact fun _ hw => hw
    | (x, y) :: rest =>
      simp only [ac3Fuel] at h
      by_cases h1 : (revise c d x y).1 = true
      · simp only [h1, if_true] at h
        by_cases h2 : (((revise c d x y).2) x).length = 0
        · simp only [h2, if_true, Option.some.injEq, Prod.mk.injEq] at h
          rw [← h.2]
          exact revise_subset c d x y v
        · simp only [h2, if_false] at h
          exact fun w hw =>
            revise_subset c d x y v (ih _ _ _ _ h v hw)
      · simp only [h1, if_false] at h
        exact ih _ _ _ _ h v

/-- The length invariant of the domain store (§3): every remaining word of a
slot's domain has exactly the slot's length. -/
abbrev LenInv (c : Crossword) (d : Domains) : Prop :=
  ∀ v ∈ c.vars, ∀ w ∈ d v, w.length = v.length

lemma lenInv_mono (c : Crossword) (d d' : Domains)
    (h : ∀ v, d' v ⊆ d v) (hi : LenInv c d) : LenInv c d' :=
  fun v hv w hw => hi v hv w (h v hw)

/-- **C5**: immediately after `enforce_node_consistency` every word in any
slot's domain has length exactly the slot's length, and `revise` and `ac3`
preserve this invariant, since they only remove words from domains.
(`backtrack` receives the domain store as a read-only argument — the
embedded search returns only assignment data — so it keeps every invariant
of the domains by construction.) -/
theorem node_consistency_length_invariant (c : Crossword) :
    (∀ d, LenInv c (enforce_node_consistency c d))
    ∧ (∀ d x y, LenInv c d → LenInv c ((revise c d x y).2))
    ∧ (∀ d arcs b d', LenInv c d → ac3 c arcs d = some (b, d') → LenInv c d') := by
  refine ⟨?_, ?_, ?_⟩
  · exact fun d v hv w hw => enforce_length c d v hv w hw
  · exact fun d x y hi => lenInv_mono c d _ (revise_subset c d x y) hi
  · intro d arcs b d' hi h
    simp only [ac3] at h
    exact lenInv_mono c d d' (ac3Fuel_subset c _ _ _ _ _ h) hi

/-- Witness for C5: the length invariant holds after node consistency on a
concrete instance and survives a concrete `revise` and a concrete `ac3`
run. -/
theorem node_consistency_length_invariant_witness :
    LenInv cexF dF
    ∧ LenInv cexF (enforce_node_consistency cexF dF)
    ∧ LenInv cexF ((revise cexF dF vA vC).2)
    ∧ ac3 cexF none dF =
        some (false, ((ac3 cexF none dF).getD (true, dF)).2)
    ∧ LenInv cexF (((ac3 cexF none dF).getD (true, dF)).2) :=
  ⟨by decide,
   (node_consistency_length_invariant cexF).1 dF,
   (node_consistency_length_invariant cexF).2.1 dF vA vC (by decide),
   by rfl,
   (node_consistency_length_invariant cexF).2.2 dF none false _ (by decide) (by rfl)⟩

/-- **C8**: domains shrink monotonically: each of
`enforce_node_consistency`, `revise` and `ac3` leaves every slot's domain a
subset of its previous value (words are only ever removed).  `backtrack` and
its helpers receive the domain store as a read-only argument and return only
assignment data, so the search cannot modify any slot's domain. -/
theorem domains_shrink_monotone (c : Crossword) :
    (∀ d v, enforce_node_consistency c d v ⊆ d v)
    ∧ (∀ d x y v, ((revise c d x y).2) v ⊆ d v)
    ∧ (∀ d arcs b d', ac3 c arcs d = some (b, d') → ∀ v, d' v ⊆ d v) := by
  refine ⟨fun d v => enforce_subset c d v, fun d x y v => revise_subset c d x y v, ?_⟩
  intro d arcs b d' h
  simp only [ac3] at h
  exact ac3Fuel_subset c _ _ _ _ _ h

/-- Witness for C8 on a concrete `ac3` run. -/
theorem domains_shrink_monotone_witness :
    ac3 cexF none dF = some (false, ((ac3 cexF none dF).getD (true, dF)).2)
    ∧ (∀ v, (((ac3 cexF none dF).getD (true, dF)).2) v ⊆ dF v)
    ∧ (∀ v, enforce_node_consistency cexF dF v ⊆ dF v)
    ∧ (∀ v, ((revise cexF dF vA vC).2) v ⊆ dF v) :=
  ⟨by rfl,
   (domains_shrink_monotone cexF).2.2 dF none false _ (by rfl),
   (domains_shrink_monotone cexF).1 dF,
   (domains_shrink_monotone cexF).2.1 dF vA vC⟩

/-! ### The base case of `backtrack` -/

/-- **C10**: on any assignment for which `assignment_complete` is true —
including an inconsistent one — `backtrack` returns that assignment itself
immediately and unchanged, before any consistency check (the completeness
test is the first statement of the function). -/
theorem backtrack_complete_immediate (c : Crossword) (d : Domains) (n : Nat)
    (a : Assignment) (h : assignment_complete c a = true) :
    backtrackS c d (n + 1) a = some (some a, a) := by
  simp [backtrackS, h]

/-- Witness for C10 at a concrete complete assignment that is *not*
consistent (the single slot has length 3 but is assigned the length-2 word
"no"), which `backtrack` nevertheless returns unchanged. -/
theorem backtrack_complete_immediate_witness :
    assignment_complete cex1 [(vC, "no")] = true
    ∧ consistent cex1 [(vC, "no")] = false
    ∧ backtrackS cex1 (initialDomains cex1) 1 [(vC, "no")] =
        some (some [(vC, "no")], [(vC, "no")]) :=
  ⟨by decide, by decide,
   backtrack_complete_immediate cex1 (initialDomains cex1) 0 [(vC, "no")] (by decide)⟩

/-! ### The variable-selection heuristic (C4)

The source's docstring promises: take the unassigned slot with the fewest
remaining domain values; on a tie, the one with the highest degree.  The
code, however, detects a tie between the two smallest counts and then takes
the highest-degree slot among *all* unassigned slots, so a tied minimum can
yield a slot whose domain is not minimal.  In `cex4` with domains `d4`,
slots `vA` and `vB` tie with one candidate each while `vC` has two
candidates and, being the only slot that crosses both others, the strictly
largest degree: the code returns `vC`.  This holds in the Python original
for every set-iteration order, since the two count-1 slots always occupy
the first two positions of the stable sort and `vC` is the unique degree
maximum. -/

/-- **C4** (code bug): at the concrete state `(cex4, d4)` with nothing
assigned, `select_unassigned_variable` returns `vC`, whose domain has two
remaining words, although the unassigned slot `vA` has only one — the
minimum-remaining-values promise of the docstring is violated when the
minimum is tied. -/
theorem select_unassigned_mrv_bug :
    select_unassigned_variable cex4 d4 [] = some vC
    ∧ (d4 vC).length = 2
    ∧ vA ∈ cex4.vars
    ∧ vA ∉ keysA []
    ∧ (d4 vA).length = 1 := by
  decide

/-! ### Termination of the `ac3` worklist loop (C6) -/

lemma mem_neighbors (c : Crossword) (x z : Variable) :
    z ∈ c.neighbors x ↔ z ∈ c.vars ∧ z ≠ x ∧ (c.overlaps x z).isSome := by
  simp [Crossword.neighbors, List.mem_filter, and_assoc]

lemma sum_map_lt_of_mem {α : Type} (l : List α) (f g : α → Nat) (x : α)
    (hx : x ∈ l) (hlt : g x < f x) (hle : ∀ v ∈ l, g v ≤ f v) :
    (l.map g).sum < (l.map f).sum := by
  induction l with
  | nil => cases hx
  | cons a t ih =>
    simp only [List.map_cons, List.sum_cons]
    rcases List.mem_cons.mp hx with rfl | hxt
    · exact Nat.add_lt_add_of_lt_of_le hlt
        (List.sum_le_sum fun v hv => hle v (List.mem_cons_of_mem _ hv))
    · exact Nat.add_lt_add_of_le_of_lt (hle a (List.mem_cons_self a t))
        (ih hxt (fun v hv => hle v (List.mem_cons_of_mem _ hv)))

lemma revise_length_le (c : Crossword) (d : Domains) (x y v : Variable) :
    ((((revise c d x y).2) v)).length ≤ (d v).length := by
  by_cases hv : v = x
  · subst hv
    cases h : c.overlaps v y with
    | none => simp [revise, h]
    | some p =>
      obtain ⟨o0, o1⟩ := p
      simp only [revise, h, Function.update_same]
      exact List.length_filter_le _ _
  · rw [revise_snd_of_ne c d x y v hv]

lemma revise_x_length_lt (c : Crossword) (d : Domains) (x y : Variable)
    (h1 : (revise c d x y).1 = true) :
    ((((revise c d x y).2) x)).length < (d x).length := by
  obtain ⟨o0, o1, h⟩ := revise_true_overlap c d x y h1
  simp only [revise, h, Function.update_same] at h1 ⊢
  have hne : (d x).filter
      (fun w => !(decide (charAt w o0 ∈ (d y).map (fun u => charAt u o1)))) ≠ [] := by
    intro hnil
    rw [hnil] at h1
    simp at h1
  obtain ⟨w, hw⟩ := List.exists_mem_of_ne_nil _ hne
  have hwmem := List.mem_filter.mp hw
  rw [List.length_filter_lt_length_iff_exists]
  refine ⟨w, hwmem.1, ?_⟩
  have := hwmem.2
  simp only [Bool.not_eq_true', decide_eq_false_iff_not] at this
  simpa using this

lemma revise_true_dx_ne_nil (c : Crossword) (d : Domains) (x y : Variable)
    (h1 : (revise c d x y).1 = true) : d x ≠ [] := by
  obtain ⟨o0, o1, h⟩ := revise_true_overlap c d x y h1
  simp only [revise, h, Bool.not_eq_false', List.isEmpty_iff] at h1
  intro hnil
  rw [hnil] at h1
  simp at h1

lemma foreignSize_cons (c : Crossword) (x y : Variable) (rest : List Arc)
    (d : Domains) :
    foreignSize c ((x, y) :: rest) d =
      (if x ∈ c.vars then 0 else (d x).length) + foreignSize c rest d := by
  simp [foreignSize]

lemma foreignSize_append (c : Crossword) (q1 q2 : List Arc) (d : Domains) :
    foreignSize c (q1 ++ q2) d = foreignSize c q1 d + foreignSize c q2 d := by
  simp [foreignSize]

lemma foreignSize_mono (c : Crossword) (q : List Arc) (d d' : Domains)
    (h : ∀ v, (d' v).length ≤ (d v).length) :
    foreignSize c q d' ≤ foreignSize c q d := by
  refine List.sum_le_sum fun p _ => ?_
  by_cases hp : p.1 ∈ c.vars
  · simp [hp]
  · simp only [hp, if_false]
    exact h p.1

lemma foreignSize_appended_eq_zero (c : Crossword) (x y : Variable)
    (d : Domains) :
    foreignSize c
      (((c.neighbors x).filter (fun z => decide (z ≠ y))).map (fun z => (z, x)))
      d = 0 := by
  refine List.sum_eq_zero fun i hi => ?_
  obtain ⟨p, hp, rfl⟩ := List.mem_map.mp hi
  obtain ⟨z, hzf, rfl⟩ := List.mem_map.mp hp
  have hz := List.mem_filter.mp hzf
  have hzv : z ∈ c.vars := ((mem_neighbors c x z).mp hz.1).1
  simp [hzv]

lemma appended_length_le (c : Crossword) (x y : Variable) :
    ((((c.neighbors x).filter (fun z => decide (z ≠ y))).map
      (fun z => (z, x)))).length ≤ c.vars.length := by
  rw [List.length_map]
  calc ((c.neighbors x).filter (fun z => decide (z ≠ y))).length
      ≤ (c.neighbors x).length := List.length_filter_le _ _
    _ ≤ c.vars.length := List.length_filter_le _ _

lemma domSize_revise_le (c : Crossword) (d : Domains) (x y : Variable) :
    domSize c ((revise c d x y).2) ≤ domSize c d := by
  exact List.sum_le_sum fun v _ => revise_length_le c d x y v

lemma domSize_revise_lt (c : Crossword) (d : Domains) (x y : Variable)
    (hx : x ∈ c.vars) (h1 : (revise c d x y).1 = true) :
    domSize c ((revise c d x y).2) < domSize c d := by
  exact sum_map_lt_of_mem c.vars.dedup _ _ x (List.mem_dedup.mpr hx)
    (revise_x_length_lt c d x y h1) (fun v _ => revise_length_le c d x y v)

lemma domSize_revise_eq_of_not_mem (c : Crossword) (d : Domains)
    (x y : Variable) (hx : x ∉ c.vars) :
    domSize c ((revise c d x y).2) = domSize c d := by
  unfold domSize
  refine congrArg _ (List.map_congr_left fun v hv => ?_)
  have hvx : v ≠ x := fun h => hx (h ▸ List.mem_dedup.mp hv)
  rw [revise_snd_of_ne c d x y v hvx]

lemma acMeasure_tail_lt (c : Crossword) (x y : Variable) (rest : List Arc)
    (d : Domains) :
    acMeasure c rest d < acMeasure c ((x, y) :: rest) d := by
  have hF : foreignSize c rest d ≤ foreignSize c ((x, y) :: rest) d := by
    rw [foreignSize_cons]
    exact Nat.le_add_left _ _
  have hM := Nat.mul_le_mul_left (c.vars.length + 1)
    (Nat.add_le_add_left hF (domSize c d))
  unfold acMeasure
  simp only [List.length_cons]
  exact Nat.add_lt_add_of_lt_of_le (Nat.lt_succ_self _) hM

lemma acMeasure_revise_lt (c : Crossword) (x y : Variable) (rest : List Arc)
    (d : Domains) (h1 : (revise c d x y).1 = true) :
    acMeasure c
      (rest ++ ((c.neighbors x).filter (fun z => decide (z ≠ y))).map
        (fun z => (z, x)))
      ((revise c d x y).2)
    < acMeasure c ((x, y) :: rest) d := by
  have hLapp := appended_length_le c x y
  have hFapp := foreignSize_appended_eq_zero c x y ((revise c d x y).2)
  have hFrest : foreignSize c rest ((revise c d x y).2) ≤ foreignSize c rest d :=
    foreignSize_mono c rest d _ (fun v => revise_length_le c d x y v)
  have hkey : domSize c ((revise c d x y).2)
        + foreignSize c
            (rest ++ ((c.neighbors x).filter (fun z => decide (z ≠ y))).map
              (fun z => (z, x))) ((revise c d x y).2) + 1
      ≤ domSize c d + foreignSize c ((x, y) :: rest) d := by
    rw [foreignSize_append, hFapp, foreignSize_cons]
    by_cases hx : x ∈ c.vars
    · have hS := domSize_revise_lt c d x y hx h1
      simp only [hx, if_true]
      omega
    · have hS := domSize_revise_eq_of_not_mem c d x y hx
      have hdx : 1 ≤ (d x).length :=
        List.length_pos.mpr (revise_true_dx_ne_nil c d x y h1)
      simp only [hx, if_false]
      omega
  have hM := Nat.mul_le_mul_left (c.vars.length + 1) hkey
  rw [Nat.mul_succ] at hM
  unfold acMeasure
  simp only [List.length_cons, List.length_append]
  omega

lemma ac3Fuel_isSome (c : Crossword) :
    ∀ n queue d, acMeasure c queue d ≤ n → (ac3Fuel c (n + 1) queue d).isSome := by
  intro n
  induction n using Nat.strong_induction_on with
  | _ n ih =>
    intro queue d hm
    match queue with
    | [] => simp [ac3Fuel]
    | (x, y) :: rest =>
      have hpos : 1 ≤ acMeasure c ((x, y) :: rest) d := by
        unfold acMeasure
        simp only [List.length_cons]
        omega
      cases n with
      | zero => exact absurd hm (by omega)
      | succ m =>
        simp only [ac3Fuel]
        by_cases h1 : (revise c d x y).1 = true
        · simp only [h1, if_true]
          by_cases h2 : ((((revise c d x y).2) x)).length = 0
          · simp [h2]
          · simp only [h2, if_false]
            have hlt := acMeasure_revise_lt c x y rest d h1
            exact ih m (Nat.lt_succ_self m) _ _ (by omega)
        · simp only [h1, if_false]
          have hlt := acMeasure_tail_lt c x y rest d
          exact ih m (Nat.lt_succ_self m) _ _ (by omega)

/-- **C6**: `ac3` terminates on every input: with fuel one more than the
measure `acMeasure` — which strictly decreases at every iteration of the
worklist loop, since each processed arc either removes at least one word
from a finite domain or removes nothing and enqueues nothing — the loop
always reaches a result. -/
theorem ac3_terminates (c : Crossword) (arcs : Option (List Arc))
    (d : Domains) : (ac3 c arcs d).isSome := by
  simp only [ac3]
  exact ac3Fuel_isSome c _ _ _ (Nat.le_refl _)

/-! ### Soundness of pruning (C1) -/

/-- A complete consistent assignment (in the sense of the source's
`assignment_complete` and `consistent`) that draws every assigned word from
the given domain store. -/
def solutionFor (c : Crossword) (d : Domains) (a : Assignment) : Prop :=
  assignment_complete c a = true ∧ consistent c a = true ∧
    ∀ v w, lookupA a v = some w → w ∈ d v

lemma lookupA_mem (a : Assignment) (v : Variable) (w : String)
    (h : lookupA a v = some w) : (v, w) ∈ a := by
  unfold lookupA at h
  cases hf : a.find? (fun p => decide (p.1 = v)) with
  | none => rw [hf] at h; simp at h
  | some p =>
    rw [hf] at h
    simp only [Option.map_some', Option.some.injEq] at h
    have hm := List.mem_of_find?_eq_some hf
    have hp := List.find?_some hf
    simp only [decide_eq_true_eq] at hp
    have : p = (v, w) := Prod.ext hp h
    rwa [this] at hm

lemma lookupA_isSome_of_mem_keys (a : Assignment) (v : Variable)
    (hv : v ∈ keysA a) : ∃ w, lookupA a v = some w := by
  obtain ⟨p, hp, hpv⟩ := List.mem_map.mp hv
  have hsome : (a.find? (fun p => decide (p.1 = v))).isSome := by
    rw [List.find?_isSome]
    exact ⟨p, hp, by simp [hpv]⟩
  obtain ⟨q, hq⟩ := Option.isSome_iff_exists.mp hsome
  exact ⟨q.2, by simp [lookupA, hq]⟩

lemma mem_keys_of_lookupA (a : Assignment) (v : Variable) (w : String)
    (h : lookupA a v = some w) : v ∈ keysA a :=
  List.mem_map.mpr ⟨(v, w), lookupA_mem a v w h, rfl⟩

lemma complete_lookup (c : Crossword) (a : Assignment)
    (hc : assignment_complete c a = true) (v : Variable) (hv : v ∈ c.vars) :
    ∃ w, lookupA a v = some w := by
  unfold assignment_complete at hc
  simp only [Bool.and_eq_true, List.all_eq_true, decide_eq_true_eq] at hc
  exact lookupA_isSome_of_mem_keys a v (hc.1.2 v hv)

lemma consistent_entry_length (c : Crossword) (a : Assignment)
    (hc : consistent c a = true) (v : Variable) (w : String)
    (hm : (v, w) ∈ a) : v.length = w.length := by
  unfold consistent at hc
  simp only [Bool.and_eq_true] at hc
  have h2 := hc.1.2
  simp only [Bool.not_eq_true', List.any_eq_false, Bool.not_eq_true,
    decide_eq_false_iff_not, not_not] at h2
  exact h2 (v, w) hm

lemma consistent_overlap_agree (c : Crossword) (a : Assignment)
    (hc : consistent c a = true) (x y : Variable) (wx wy : String)
    (hx : lookupA a x = some wx) (hy : lookupA a y = some wy)
    (hyv : y ∈ c.vars) (hxy : x ≠ y) (o0 o1 : Nat)
    (hov : c.overlaps x y = some (o0, o1)) :
    charAt wx o0 = charAt wy o1 := by
  have hxm : (x, wx) ∈ a := lookupA_mem a x wx hx
  have hyk : y ∈ keysA a := mem_keys_of_lookupA a y wy hy
  unfold consistent at hc
  simp only [Bool.and_eq_true, List.all_eq_true] at hc
  have h3 := hc.2 (x, wx) hxm
  have hyn : y ∈ (c.neighbors x).filter (fun nb => decide (nb ∈ keysA a)) := by
    rw [List.mem_filter]
    refine ⟨(mem_neighbors c x y).mpr ⟨hyv, Ne.symm hxy, by simp [hov]⟩, by simpa using hyk⟩
  have hm := h3 y hyn
  simp only [hov, hy] at hm
  simpa using hm

lemma revise_keeps_solution (c : Crossword) (d : Domains) (x y : Variable)
    (hyv : y ∈ c.vars) (hxy : x ≠ y) (a : Assignment)
    (hs : solutionFor c d a) : solutionFor c ((revise c d x y).2) a := by
  obtain ⟨hcomp, hcons, hmem⟩ := hs
  refine ⟨hcomp, hcons, ?_⟩
  intro v w hvw
  by_cases hvx : v = x
  · subst hvx
    cases hov : c.overlaps v y with
    | none =>
      rw [show (revise c d v y).2 = d by simp [revise, hov]]
      exact hmem v w hvw
    | some p =>
      obtain ⟨o0, o1⟩ := p
      obtain ⟨wy, hwy⟩ := complete_lookup c a hcomp y hyv
      have hag : charAt w o0 = charAt wy o1 :=
        consistent_overlap_agree c a hcons v y w wy hvw hwy hyv hxy o0 o1 hov
      rw [mem_revise_keep c d v y o0 o1 hov w]
      refine ⟨hmem v w hvw, ?_⟩
      rw [List.mem_map]
      exact ⟨wy, hmem y wy hwy, hag.symm⟩
  · rw [revise_snd_of_ne c d x y v hvx]
    exact hmem v w hvw

/-- All arcs of a worklist join two distinct slots of the crossword. -/
def QueueInv (c : Crossword) (queue : List Arc) : Prop :=
  ∀ p ∈ queue, p.1 ∈ c.vars ∧ p.2 ∈ c.vars ∧ p.1 ≠ p.2

lemma initialArcs_queueInv (c : Crossword) : QueueInv c (initialArcs c) := by
  intro p hp
  obtain ⟨x, y⟩ := p
  unfold initialArcs at hp
  rw [List.mem_filter] at hp
  obtain ⟨hpp, hcond⟩ := hp
  simp only [Bool.and_eq_true, decide_eq_true_eq] at hcond
  have hprod := List.pair_mem_product.mp hpp
  exact ⟨hprod.1, hprod.2, hcond.1⟩

lemma ac3Fuel_keeps_solution (c : Crossword) (a : Assignment) :
    ∀ n queue d b d', QueueInv c queue → solutionFor c d a →
      ac3Fuel c n queue d = some (b, d') → b = true ∧ solutionFor c d' a := by
  intro n
  induction n with
  | zero =>
    intro queue d b d' _ _ h
    simp [ac3Fuel] at h
  | succ n ih =>
    intro queue d b d' hq hs h
    match queue with
    | [] =>
      simp only [ac3Fuel, Option.some.injEq, Prod.mk.injEq] at h
      exact ⟨h.1.symm, h.2 ▸ hs⟩
    | (x, y) :: rest =>
      obtain ⟨hxv, hyv, hxy⟩ := hq (x, y) (List.mem_cons_self _ _)
      have hs' : solutionFor c ((revise c d x y).2) a :=
        revise_keeps_solution c d x y hyv hxy a hs
      simp only [ac3Fuel] at h
      by_cases h1 : (revise c d x y).1 = true
      · simp only [h1, if_true] at h
        by_cases h2 : (((revise c d x y).2) x).length = 0
        · exfalso
          obtain ⟨wx, hwx⟩ := complete_lookup c a hs.1 x hxv
          have hmem : wx ∈ ((revise c d x y).2) x := hs'.2.2 x wx hwx
          rw [List.length_eq_zero.mp h2] at hmem
          cases hmem
        · simp only [h2, if_false] at h
          refine ih _ _ _ _ ?_ hs' h
          intro p hp
          rcases List.mem_append.mp hp with hp | hp
          · exact hq p (List.mem_cons_of_mem _ hp)
          · obtain ⟨z, hzf, rfl⟩ := List.mem_map.mp hp
            have hz := List.mem_filter.mp hzf
            have hzn := (mem_neighbors c x z).mp hz.1
            exact ⟨hzn.1, hxv, hzn.2.1⟩
      · simp only [h1, if_false] at h
        exact ih _ _ _ _ (fun p hp => hq p (List.mem_cons_of_mem _ hp)) hs h

lemma enforce_keeps_solution (c : Crossword) (d : Domains) (a : Assignment)
    (hs : solutionFor c d a) :
    solutionFor c (enforce_node_consistency c d) a := by
  obtain ⟨hcomp, hcons, hmem⟩ := hs
  refine ⟨hcomp, hcons, ?_⟩
  intro v w hvw
  unfold enforce_node_consistency
  by_cases hv : v ∈ c.vars
  · simp only [hv, if_true, List.mem_filter, decide_eq_true_eq]
    refine ⟨hmem v w hvw, ?_⟩
    exact (consistent_entry_length c a hcons v w (lookupA_mem a v w hvw)).symm
  · simp only [hv, if_false]
    exact hmem v w hvw

/-- **C1**: soundness of pruning.  First part: if `ac3` — run after
`enforce_node_consistency` with the default all-neighbor-arcs worklist —
returns `False`, then no complete consistent assignment drawing its words
from the original pre-pruning domains exists.  Second part: no word removed
by `revise` (from the domain of a slot `x` against any slot `y` of the
grid) participates in any complete consistent assignment over the current
domains. -/
theorem ac3_false_no_solution (c : Crossword) (d : Domains) :
    (∀ d', ac3 c none (enforce_node_consistency c d) = some (false, d') →
        ¬ ∃ a, solutionFor c d a)
    ∧ (∀ x y w, y ∈ c.vars → x ≠ y → w ∉ ((revise c d x y).2) x →
        ¬ ∃ a, solutionFor c d a ∧ lookupA a x = some w) := by
  constructor
  · rintro d' h ⟨a, hs⟩
    have hs1 := enforce_keeps_solution c d a hs
    simp only [ac3, Option.getD_none] at h
    have hres := ac3Fuel_keeps_solution c a _ _ _ _ _
      (initialArcs_queueInv c) hs1 h
    exact Bool.false_ne_true hres.1
  · rintro x y w hyv hxy hw ⟨a, hs, hl⟩
    exact hw ((revise_keeps_solution c d x y hyv hxy a hs).2.2 x w hl)

/-- Witness for C1 on a concrete unsatisfiable instance: two crossing slots
whose only candidates disagree on the shared cell; `ac3` returns `False`,
and indeed no solution exists; the word "abc" removed by
`revise cexF dF vA vC` occurs in no solution. -/
theorem ac3_false_no_solution_witness :
    ac3 cexF none (enforce_node_consistency cexF dF) =
      some (false, ((ac3 cexF none (enforce_node_consistency cexF dF)).getD
        (true, dF)).2)
    ∧ (¬ ∃ a, solutionFor cexF dF a)
    ∧ vC ∈ cexF.vars
    ∧ "abc" ∉ ((revise cexF dF vA vC).2) vA
    ∧ (¬ ∃ a, solutionFor cexF dF a ∧ lookupA a vA = some "abc") :=
  ⟨by rfl,
   (ac3_false_no_solution cexF dF).1 _ (by rfl),
   by decide,
   by decide,
   (ac3_false_no_solution cexF dF).2 vA vC "abc" (by decide) (by decide) (by decide)⟩

/-! ### Arc consistency at the fixed point (C3) -/

/-- Modelled from the spec: the overlap map is symmetric — the entry for
`(y, x)` is the entry for `(x, y)` with the offsets swapped (§3: "a pair of
offsets `(posA, posB)` meaning character at position `posA` of A's word must
equal character at position `posB` of B's word", for the unordered pair).
Stated over the crossword's slots so that it is checkable on concrete
instances. -/
abbrev SymmOverlaps (c : Crossword) : Prop :=
  ∀ x ∈ c.vars, ∀ y ∈ c.vars,
    c.overlaps y x = (c.overlaps x y).map (fun p => (p.2, p.1))

/-- Slot `x` is arc consistent with slot `y`: every word remaining for `x`
has at least one compatible word for `y` at the overlap positions. -/
def ArcCons (c : Crossword) (d : Domains) (x y : Variable) : Prop :=
  ∀ o0 o1, c.overlaps x y = some (o0, o1) →
    ∀ w ∈ d x, ∃ u ∈ d y, charAt w o0 = charAt u o1

/-- The AC-3 loop invariant: every neighbor arc that is *not* pending in the
worklist is already arc consistent. -/
def ACInv (c : Crossword) (queue : List Arc) (d : Domains) : Prop :=
  ∀ x ∈ c.vars, ∀ y ∈ c.vars, x ≠ y → (x, y) ∉ queue → ArcCons c d x y

lemma mem_initialArcs (c : Crossword) (x y : Variable) (hx : x ∈ c.vars)
    (hy : y ∈ c.vars) (hxy : x ≠ y) (hov : (c.overlaps x y).isSome) :
    (x, y) ∈ initialArcs c := by
  unfold initialArcs
  rw [List.mem_filter]
  exact ⟨List.pair_mem_product.mpr ⟨hx, hy⟩, by simp [hxy, hov]⟩

lemma initial_ACInv (c : Crossword) (d : Domains) :
    ACInv c (initialArcs c) d := by
  intro x hx y hy hxy hnot o0 o1 hov w _
  exact absurd (mem_initialArcs c x y hx hy hxy (by simp [hov])) hnot

lemma queueInv_step (c : Crossword) (a b : Variable) (rest : List Arc)
    (hq : QueueInv c ((a, b) :: rest)) (hav : a ∈ c.vars) :
    QueueInv c (rest ++
      ((c.neighbors a).filter (fun z => decide (z ≠ b))).map (fun z => (z, a))) := by
  intro p hp
  rcases List.mem_append.mp hp with hp | hp
  · exact hq p (List.mem_cons_of_mem _ hp)
  · obtain ⟨z, hzf, rfl⟩ := List.mem_map.mp hp
    have hz := List.mem_filter.mp hzf
    have hzn := (mem_neighbors c a z).mp hz.1
    exact ⟨hzn.1, hav, hzn.2.1⟩

lemma ac3Fuel_arc_consistent (c : Crossword) (hs : SymmOverlaps c) :
    ∀ n queue d d', QueueInv c queue → ACInv c queue d →
      ac3Fuel c n queue d = some (true, d') →
      ∀ x ∈ c.vars, ∀ y ∈ c.vars, x ≠ y → ArcCons c d' x y := by
  intro n
  induction n with
  | zero =>
    intro queue d d' _ _ h
    simp [ac3Fuel] at h
  | succ n ih =>
    intro queue d d' hq hinv h
    match queue with
    | [] =>
      simp only [ac3Fuel, Option.some.injEq, Prod.mk.injEq, true_and] at h
      intro x hx y hy hxy
      exact h ▸ hinv x hx y hy hxy (List.not_mem_nil _)
    | (a, b) :: rest =>
      obtain ⟨hav, hbv, hab⟩ := hq (a, b) (List.mem_cons_self _ _)
      simp only [ac3Fuel] at h
      by_cases h1 : (revise c d a b).1 = true
      · simp only [h1, if_true] at h
        by_cases h2 : (((revise c d a b).2) a).length = 0
        · simp [h2] at h
        · simp only [h2, if_false] at h
          obtain ⟨o0, o1, hov⟩ := revise_true_overlap c d a b h1
          refine ih _ _ _ (queueInv_step c a b rest hq hav) ?_ h
          intro x hx y hy hxy hnot
          have hnrest : (x, y) ∉ rest :=
            fun hmem => hnot (List.mem_append_left _ hmem)
          have hnapp : (x, y) ∉
              ((c.neighbors a).filter (fun z => decide (z ≠ b))).map
                (fun z => (z, a)) :=
            fun hmem => hnot (List.mem_append_right _ hmem)
          have hab' : a ≠ b := hab
          by_cases hxa : x = a
          · intro p0 p1 hovxy w hw
            by_cases hyb : y = b
            · rw [hxa, hyb, hov] at hovxy
              simp only [Option.some.injEq, Prod.mk.injEq] at hovxy
              obtain ⟨hp0, hp1⟩ := hovxy
              rw [hxa] at hw
              have hk := (mem_revise_keep c d a b o0 o1 hov w).mp hw
              rw [hyb, revise_snd_of_ne c d a b b (Ne.symm hab')]
              obtain ⟨u, hu, huw⟩ := List.mem_map.mp hk.2
              refine ⟨u, hu, ?_⟩
              rw [← hp0, ← hp1]
              exact huw.symm
            · have hold := hinv x hx y hy hxy (fun hmem => by
                rcases List.mem_cons.mp hmem with heq | hmem
                · injection heq with e1 e2
                  exact hyb e2
                · exact hnrest hmem)
              have hya : y ≠ a := fun h => hxy (hxa.trans h.symm)
              have hw' : w ∈ d x := by
                rw [hxa] at hw ⊢
                exact revise_subset c d a b a hw
              rw [revise_snd_of_ne c d a b y hya]
              exact hold p0 p1 hovxy w hw'
          · by_cases hya : y = a
            · by_cases hxb : x = b
              · intro p0 p1 hovxy w hw
                rw [revise_snd_of_ne c d a b x hxa] at hw
                have hold := hinv x hx y hy hxy (fun hmem => by
                  rcases List.mem_cons.mp hmem with heq | hmem
                  · injection heq with e1 e2
                    exact hab' ((hya ▸ e2 : a = b))
                  · exact hnrest hmem)
                obtain ⟨u, hu, huw⟩ := hold p0 p1 hovxy w hw
                have hsym := hs a hav b hbv
                rw [hov] at hsym
                simp only [Option.map_some'] at hsym
                rw [hxb, hya, hsym] at hovxy
                simp only [Option.some.injEq, Prod.mk.injEq] at hovxy
                obtain ⟨hp0, hp1⟩ := hovxy
                rw [hya] at hu ⊢
                refine ⟨u, ?_, huw⟩
                rw [mem_revise_keep c d a b o0 o1 hov u]
                refine ⟨hu, ?_⟩
                rw [List.mem_map]
                refine ⟨w, ?_, ?_⟩
                · rw [hxb] at hw
                  exact hw
                · rw [hp0, hp1]
                  exact huw
              · intro p0 p1 hovxy w hw
                exfalso
                apply hnapp
                rw [List.mem_map]
                refine ⟨x, ?_, by rw [hya]⟩
                rw [List.mem_filter]
                have hsym := hs x hx a hav
                rw [hya] at hovxy
                rw [hovxy] at hsym
                refine ⟨(mem_neighbors c a x).mpr ⟨hx, hxa, by simp [hsym]⟩,
                  by simp [hxb]⟩
            · intro p0 p1 hovxy w hw
              rw [revise_snd_of_ne c d a b x hxa] at hw
              rw [revise_snd_of_ne c d a b y hya]
              refine hinv x hx y hy hxy (fun hmem => by
                rcases List.mem_cons.mp hmem with heq | hmem
                · injection heq with e1 e2
                  exact hxa e1
                · exact hnrest hmem) p0 p1 hovxy w hw
      · simp only [h1, if_false] at h
        refine ih _ _ _ (fun p hp => hq p (List.mem_cons_of_mem _ hp)) ?_ h
        intro x hx y hy hxy hnrest
        by_cases hxy' : (x, y) = (a, b)
        · injection hxy' with e1 e2
          subst e1
          subst e2
          intro p0 p1 hov w hw
          have hsup := revise_false_support c d x y p0 p1 hov
            (Bool.eq_false_iff.mpr h1) w hw
          obtain ⟨u, hu, hcu⟩ := List.mem_map.mp hsup
          exact ⟨u, hu, hcu.symm⟩
        · exact hinv x hx y hy hxy (fun hmem => by
            rcases List.mem_cons.mp hmem with heq | hmem
            · exact hxy' heq
            · exact hnrest hmem)

/-- **C3**: if `ac3` (default worklist) returns `True`, the resulting domain
store is arc consistent: for every pair of distinct slots with a defined
overlap, every word remaining for the first slot has at least one word
remaining for the second slot agreeing at the overlap positions — and, the
statement being quantified over both orientations of the pair, symmetrically. -/
theorem ac3_true_arc_consistent (c : Crossword) (d d' : Domains)
    (hs : SymmOverlaps c) (h : ac3 c none d = some (true, d')) :
    ∀ x ∈ c.vars, ∀ y ∈ c.vars, x ≠ y → ∀ o0 o1,
      c.overlaps x y = some (o0, o1) →
      ∀ w ∈ d' x, ∃ u ∈ d' y, charAt w o0 = charAt u o1 := by
  simp only [ac3, Option.getD_none] at h
  intro x hx y hy hxy
  exact ac3Fuel_arc_consistent c hs _ _ _ _ (initialArcs_queueInv c)
    (initial_ACInv c d) h x hx y hy hxy

/-- Witness for C3 on the CAT/DOG/CAR crossing-slot instance, where `ac3`
returns `True`. -/
theorem ac3_true_arc_consistent_witness :
    SymmOverlaps cex2
    ∧ ac3 cex2 none d2 =
        some (true, ((ac3 cex2 none d2).getD (false, d2)).2)
    ∧ (∀ x ∈ cex2.vars, ∀ y ∈ cex2.vars, x ≠ y → ∀ o0 o1,
        cex2.overlaps x y = some (o0, o1) →
        ∀ w ∈ (((ac3 cex2 none d2).getD (false, d2)).2) x,
          ∃ u ∈ (((ac3 cex2 none d2).getD (false, d2)).2) y,
            charAt w o0 = charAt u o1) :=
  ⟨by decide, by rfl,
   ac3_true_arc_consistent cex2 d2 _ (by decide) (by rfl)⟩

/-! ### The backtracking search: undo discipline and soundness (C7, C2) -/

lemma insertA_of_not_mem (a : Assignment) (v : Variable) (w : String)
    (h : v ∉ keysA a) : insertA a v w = a ++ [(v, w)] := by
  simp [insertA, h]

lemma filter_ne_key_eq_self (a : Assignment) (v : Variable)
    (h : v ∉ keysA a) :
    a.filter (fun p => !(decide (p.1 = v))) = a := by
  rw [List.filter_eq_self]
  intro p hp
  simp only [Bool.not_eq_true', decide_eq_false_iff_not]
  exact fun hpv => h (List.mem_map.mpr ⟨p, hp, hpv⟩)

lemma eraseA_of_not_mem (a : Assignment) (v : Variable) (h : v ∉ keysA a) :
    eraseA a v = a :=
  filter_ne_key_eq_self a v h

lemma eraseA_insertA (a : Assignment) (v : Variable) (w : String)
    (h : v ∉ keysA a) : eraseA (insertA a v w) v = a := by
  rw [insertA_of_not_mem a v w h]
  unfold eraseA
  rw [List.filter_append, filter_ne_key_eq_self a v h]
  simp

lemma mem_insertSorted {α : Type} (le : α → α → Bool) (x : α) (l : List α)
    (z : α) : z ∈ insertSorted le x l ↔ z = x ∨ z ∈ l := by
  induction l with
  | nil => simp [insertSorted]
  | cons y ys ih =>
    unfold insertSorted
    cases hle : le x y with
    | true =>
      rw [if_pos rfl]
      simp [List.mem_cons]
    | false =>
      rw [if_neg Bool.false_ne_true]
      simp only [List.mem_cons, ih]
      tauto

lemma mem_sortStable {α : Type} (le : α → α → Bool) (l : List α) (z : α) :
    z ∈ sortStable le l ↔ z ∈ l := by
  induction l with
  | nil => simp [sortStable]
  | cons y ys ih => simp [sortStable, mem_insertSorted, ih]

lemma mem_map_unassigned (c : Crossword) (a : Assignment) {β : Type}
    (f : Variable → β) (p : Variable × β)
    (hp : p ∈ (c.vars.filter (fun v => !(decide (v ∈ keysA a)))).map
      (fun v => (v, f v))) :
    p.1 ∈ c.vars ∧ p.1 ∉ keysA a := by
  obtain ⟨u, hu, rfl⟩ := List.mem_map.mp hp
  have hm := List.mem_filter.mp hu
  simp only [Bool.not_eq_true', decide_eq_false_iff_not] at hm
  exact ⟨hm.1, hm.2⟩

lemma select_unassigned_spec (c : Crossword) (d : Domains) (a : Assignment)
    (v : Variable) (h : select_unassigned_variable c d a = some v) :
    v ∈ c.vars ∧ v ∉ keysA a := by
  simp only [select_unassigned_variable] at h
  cases hs1 : sortStable (fun p q => decide (p.2 ≤ q.2))
      ((c.vars.filter (fun v => !(decide (v ∈ keysA a)))).map
        (fun v => (v, (d v).length))) with
  | nil => rw [hs1] at h; simp at h
  | cons p tail =>
    have hpmem : p ∈ (c.vars.filter (fun v => !(decide (v ∈ keysA a)))).map
        (fun v => (v, (d v).length)) :=
      (mem_sortStable _ _ p).mp (hs1 ▸ List.mem_cons_self p tail)
    cases tail with
    | nil =>
      rw [hs1] at h
      simp only [Option.some.injEq] at h
      exact h ▸ mem_map_unassigned c a _ p hpmem
    | cons q tail2 =>
      rw [hs1] at h
      dsimp only at h
      by_cases hne : p.2 ≠ q.2
      · rw [if_pos hne] at h
        simp only [Option.some.injEq] at h
        exact h ▸ mem_map_unassigned c a _ p hpmem
      · rw [if_neg hne] at h
        cases hs2 : sortStable (fun p q => decide (q.2 ≤ p.2))
            ((c.vars.filter (fun v => !(decide (v ∈ keysA a)))).map
              (fun v => (v, (c.neighbors v).length))) with
        | nil => rw [hs2] at h; simp at h
        | cons r tail3 =>
          rw [hs2] at h
          simp only [Option.some.injEq] at h
          have hrmem : r ∈ (c.vars.filter (fun v => !(decide (v ∈ keysA a)))).map
              (fun v => (v, (c.neighbors v).length)) :=
            (mem_sortStable _ _ r).mp (hs2 ▸ List.mem_cons_self r tail3)
          exact h ▸ mem_map_unassigned c a _ r hrmem

/-- The restoration-and-soundness contract of one `backtrack` call at a
given fuel: a `None` return leaves the assignment exactly as it was, and a
returned assignment is consistent and complete provided the input was
consistent. -/
def BtS (c : Crossword) (d : Domains) (n : Nat) : Prop :=
  ∀ a res a', backtrackS c d n a = some (res, a') →
    (res = none → a' = a) ∧
    (∀ r, res = some r → consistent c a = true →
      consistent c r = true ∧ assignment_complete c r = true)

/-- The same contract for the candidate-word loop, for a slot not yet in
the assignment. -/
def BtL (c : Crossword) (d : Domains) (n : Nat) : Prop :=
  ∀ var ws a res a', var ∉ keysA a →
    backtrackLoop c (backtrackS c d n) var ws a = some (res, a') →
    (res = none → a' = a) ∧
    (∀ r, res = some r → consistent c r = true ∧ assignment_complete c r = true)

lemma btS_zero (c : Crossword) (d : Domains) : BtS c d 0 := by
  intro a res a' h
  simp [backtrackS] at h

lemma btL_of_btS (c : Crossword) (d : Domains) (n : Nat) (hS : BtS c d n) :
    BtL c d n := by
  intro var ws
  induction ws with
  | nil =>
    intro a res a' _ hl
    simp only [backtrackLoop, Option.some.injEq, Prod.mk.injEq] at hl
    refine ⟨fun _ => hl.2.symm, fun r hr => ?_⟩
    rw [← hl.1] at hr
    cases hr
  | cons w ws ih =>
    intro a res a' hvar hl
    simp only [backtrackLoop] at hl
    by_cases hcons : consistent c (insertA a var w) = true
    · simp only [hcons, if_true] at hl
      cases hbt : backtrackS c d n (insertA a var w) with
      | none => rw [hbt] at hl; simp at hl
      | some pr =>
        obtain ⟨res1, a1⟩ := pr
        rw [hbt] at hl
        cases res1 with
        | some r =>
          simp only [Option.some.injEq, Prod.mk.injEq] at hl
          constructor
          · intro hnone
            rw [hnone] at hl
            cases hl.1
          · intro r' hr'
            have : some r = some r' := hl.1.symm ▸ hr'
            injection this with e
            exact e ▸ (hS _ _ _ hbt).2 r rfl hcons
        | none =>
          have hrest : a1 = insertA a var w := (hS _ _ _ hbt).1 rfl
          have herase : eraseA a1 var = a := by
            rw [hrest]
            exact eraseA_insertA a var w hvar
          dsimp only at hl
          rw [herase] at hl
          exact ih a res a' hvar hl
    · simp only [hcons, if_false] at hl
      rw [eraseA_of_not_mem a var hvar] at hl
      exact ih a res a' hvar hl

lemma btS_succ (c : Crossword) (d : Domains) (n : Nat) (hL : BtL c d n) :
    BtS c d (n + 1) := by
  intro a res a' h
  simp only [backtrackS] at h
  by_cases hcomp : assignment_complete c a = true
  · simp only [hcomp, if_true, Option.some.injEq, Prod.mk.injEq] at h
    refine ⟨fun hnone => ?_, fun r hr hcons => ?_⟩
    · rw [hnone] at h
      cases h.1
    · have : some a = some r := h.1.symm ▸ hr
      injection this with e
      exact ⟨e ▸ hcons, e ▸ hcomp⟩
  · simp only [hcomp, if_false] at h
    cases hsel : select_unassigned_variable c d a with
    | none => rw [hsel] at h; simp at h
    | some var =>
      rw [hsel] at h
      have hvar := (select_unassigned_spec c d a var hsel).2
      have hres := hL var (order_domain_values c d var a) a res a' hvar h
      exact ⟨hres.1, fun r hr _ => hres.2 r hr⟩

lemma backtrackS_spec (c : Crossword) (d : Domains) : ∀ n, BtS c d n := by
  intro n
  induction n with
  | zero => exact btS_zero c d
  | succ n ih => exact btS_succ c d n (btL_of_btS c d n ih)

/-- **C7**: backtracking failure is atomic: whenever `backtrack` returns
`None`, the `assignment` dict holds exactly the entries it held before the
call — every tentative entry added during the search has been popped on the
way out.  (`backtrackS` pairs the Python return value with the state of the
mutated dict when the call returns.) -/
theorem backtrack_none_restores_assignment (c : Crossword) (d : Domains)
    (n : Nat) (a a' : Assignment)
    (h : backtrackS c d n a = some (none, a')) : a' = a :=
  (backtrackS_spec c d n a none a' h).1 rfl

/-- Witness for C7 on an unsolvable concrete instance (two slots, one
word): the search fails and leaves the empty assignment empty. -/
theorem backtrack_none_restores_assignment_witness :
    backtrackS cex3 (initialDomains cex3) 3 [] = some (none, [])
    ∧ ([] : Assignment) = [] :=
  ⟨by decide,
   backtrack_none_restores_assignment cex3 (initialDomains cex3) 3 [] []
     (by decide)⟩

/-- Counterexample to C2 as stated: `backtrack` called on a complete but
*inconsistent* assignment (slot of length 3 assigned the length-2 word
"no") returns it as a non-`None` result, so a non-`None` return does not by
itself satisfy `consistent`. -/
theorem backtrack_returns_inconsistent_assignment :
    backtrackS cex1 (initialDomains cex1) 1 [(vC, "no")] =
      some (some [(vC, "no")], [(vC, "no")])
    ∧ consistent cex1 [(vC, "no")] = false := by
  decide

/-- **C2** (amended): whenever `backtrack` is called on a *consistent*
assignment — in particular on the empty assignment used by `solve` — and
returns a non-`None` assignment, that assignment satisfies both
`consistent` and `assignment_complete`. -/
theorem backtrack_some_consistent_complete (c : Crossword) (d : Domains)
    (n : Nat) (a a' r : Assignment) (hc : consistent c a = true)
    (h : backtrackS c d n a = some (some r, a')) :
    consistent c r = true ∧ assignment_complete c r = true :=
  (backtrackS_spec c d n a (some r) a' h).2 r rfl hc

/-- Witness for C2 (amended) on a solvable one-slot instance, started from
the empty assignment. -/
theorem backtrack_some_consistent_complete_witness :
    consistent cex1 [] = true
    ∧ backtrackS cex1 (initialDomains cex1) 2 [] =
        some (some [(vC, "dog")], [(vC, "dog")])
    ∧ consistent cex1 [(vC, "dog")] = true
    ∧ assignment_complete cex1 [(vC, "dog")] = true :=
  ⟨by decide, by decide,
   backtrack_some_consistent_complete cex1 (initialDomains cex1) 2 []
     [(vC, "dog")] [(vC, "dog")] (by decide) (by decide)⟩

end CrosswordCSP
